import Mathlib

/-!
# Verification of the habit-tracking state engine

A shallow embedding of the core of `src/script.js` (a browser habit tracker):
the habit registry, the sparse completion ledger, the scoring engine with its
level tiers, the streak calculator and the calendar aggregator.

Modelling conventions:
* A JavaScript object with unique keys is modelled as an association list;
  lookup (`objGet`) and update (`objSet`) act on the first matching key,
  which coincides with JS object semantics since JS object keys are unique
  (a fresh key is appended at the end, matching JS insertion order).
* `DayKey` (a `YYYY-MM-DD` string in the source) is modelled as an `Int`
  day index; the source's `Date` arithmetic (`setDate(getDate() - 1)`,
  `toISOString().slice(0, 10)`) is exactly day-granularity arithmetic, and
  the lexicographic DayKey order coincides with the chronological (integer)
  order of day indices.
* JS numbers holding points, thresholds and orders are modelled as `Int`;
  the one floating-point expression (`Math.round((into / span) * 100)` in
  `getLevelInfo`) is modelled exactly: IEEE 754 binary64 arithmetic is
  embedded over exact rationals by `fpRound53` (round to nearest, ties to
  even, 53-bit significand — the operands stay in the normal range), with
  the division and multiplication correctly rounded as IEEE requires, and
  `Math.round` (`jsRound`) is the exact nearest-integer-ties-up of the
  resulting double's value.  The double rounding makes the code differ
  from the exact rational formula at some inputs (e.g. points 23 and 86,
  where `(into/span)*100` evaluates to slightly below 57.5 and rounds to
  57 instead of the exact 58).
* DOM rendering and `localStorage` persistence are side effects outside the
  core state; functions below carry only their effect on the app state.
  `getTodayKey()` reads the clock, so "today" is an explicit parameter.
-/

namespace HabitGrove

abbrev HabitId := String
abbrev DayKey := Int

/-- Lookup in a JS object modelled as an association list (first match). -/
def objGet {α β : Type} [DecidableEq α] : List (α × β) → α → Option β
  | [], _ => none
  | (k', v) :: rest, k => if k' = k then some v else objGet rest k

/-- Assignment `o[k] = v` on a JS object modelled as an association list:
replaces the (unique) existing binding or appends a fresh one at the end. -/
def objSet {α β : Type} [DecidableEq α] : List (α × β) → α → β → List (α × β)
  | [], k, v => [(k, v)]
  | (k', v') :: rest, k, v =>
    if k' = k then (k, v) :: rest else (k', v') :: objSet rest k v

/-- A habit definition (src/script.js, `DEFAULT_HABITS` shape and the
add-habit handler). -/
structure Habit where
  id : HabitId
  name : String
  createdAt : DayKey
  order : Int
deriving DecidableEq

/-- A per-day record: JS object mapping habit id to done flag. -/
abbrev DayRecord := List (HabitId × Bool)

/-- `state.completions`: JS object mapping date key to per-day record. -/
abbrev Completions := List (DayKey × DayRecord)

/-- The aggregate app state (src/script.js, `createInitialState` shape). -/
structure AppState where
  habits : List Habit
  completions : Completions
  points : Int
deriving DecidableEq

/-- src/script.js `DEFAULT_HABITS` (ids and names). -/
def DEFAULT_HABITS : List (HabitId × String) :=
  [("water", "Drink 6 glasses of water"),
   ("move", "Move your body for 20 minutes"),
   ("read", "Read for 10 minutes")]

/-- src/script.js `createInitialState`: default habits with `order = index`,
empty completions, zero points. `today` is the value of `getTodayKey()`. -/
def createInitialState (today : DayKey) : AppState :=
  { habits := DEFAULT_HABITS.enum.map (fun p => ⟨p.2.1, p.2.2, today, (p.1 : Int)⟩),
    completions := [],
    points := 0 }

/-- src/script.js `ensureDateEntry`: materialize an empty record for
`dateKey` when absent. -/
def ensureDateEntry (s : AppState) (dateKey : DayKey) : AppState :=
  match objGet s.completions dateKey with
  | some _ => s
  | none => { s with completions := objSet s.completions dateKey [] }

/-- src/script.js `isHabitDoneOnDate`: `day ? Boolean(day[habitId]) : false`. -/
def isHabitDoneOnDate (s : AppState) (habitId : HabitId) (dateKey : DayKey) : Bool :=
  match objGet s.completions dateKey with
  | some day => (objGet day habitId).getD false
  | none => false

/-- src/script.js `toggleHabitForToday` (state effect only; `saveState` and
the re-renders do not change the core state). `todayKey` is `getTodayKey()`. -/
def toggleHabitForToday (s : AppState) (todayKey : DayKey) (habitId : HabitId)
    (done : Bool) : AppState :=
  let s1 := ensureDateEntry s todayKey
  let day := (objGet s1.completions todayKey).getD []
  let alreadyDone := (objGet day habitId).getD false
  let completions2 := objSet s1.completions todayKey (objSet day habitId done)
  let points2 :=
    if !alreadyDone && done then s1.points + 5
    else if alreadyDone && !done then max 0 (s1.points - 5)
    else s1.points
  { s1 with completions := completions2, points := points2 }

/-- src/script.js `computeStreak`'s loop body: walk backward from `cursor`
while the habit is done, counting days.  The source's `while (true)` loop
stops at the first absent/false day; since each counted day owns a distinct
ledger entry, `s.completions.length` iterations always suffice
(`doneRun_le_completions_length` below), so the fuelled recursion computes
exactly the loop's result. -/
def computeStreakAux (s : AppState) (habitId : HabitId) : DayKey → Nat → Nat
  | _, 0 => 0
  | cursor, fuel + 1 =>
    if isHabitDoneOnDate s habitId cursor then
      computeStreakAux s habitId (cursor - 1) fuel + 1
    else 0

/-- src/script.js `computeStreak`: consecutive done days ending at today. -/
def computeStreak (s : AppState) (todayKey : DayKey) (habitId : HabitId) : Nat :=
  computeStreakAux s habitId todayKey s.completions.length

/-- src/script.js `renderHabitList`'s effect on the core state: it calls
`ensureDateEntry(todayKey)` before building the DOM. -/
def renderHabitListState (s : AppState) (todayKey : DayKey) : AppState :=
  ensureDateEntry s todayKey

/-- src/script.js `LEVELS` entry. -/
structure Level where
  label : String
  threshold : Int
deriving DecidableEq

/-- src/script.js `LEVELS`. -/
def LEVELS : List Level :=
  [⟨"Seedling", 0⟩, ⟨"Sprout", 40⟩, ⟨"Sapling", 120⟩,
   ⟨"Young tree", 260⟩, ⟨"Grove guardian", 480⟩]

/-- Result shape of src/script.js `getLevelInfo`. -/
structure LevelInfo where
  label : String
  progressPercent : Int
  caption : String
deriving DecidableEq

/-- JS `Math.round` applied to the exact value of a double: the nearest
integer, ties toward positive infinity (ECMA-262 semantics, computed
exactly, not via a double addition of 0.5). -/
def jsRound (q : ℚ) : Int := ⌊q + 1 / 2⌋

/-- Round a rational to the nearest integer, ties to even — the rounding
of IEEE 754 round-to-nearest mode. -/
def roundTiesEven (x : ℚ) : Int :=
  if x - ⌊x⌋ < 1/2 then ⌊x⌋
  else if 1/2 < x - ⌊x⌋ then ⌊x⌋ + 1
  else if 2 ∣ ⌊x⌋ then ⌊x⌋ else ⌊x⌋ + 1

/-- The exact value of the IEEE 754 binary64 nearest to `q` (ties to
even), for `q` in the normal positive range: the significand
`q / 2 ^ (e - 52)` (with `2 ^ e ≤ q < 2 ^ (e + 1)`) is rounded to an
integer.  `getLevelInfo` only ever rounds such values (or zero). -/
def fpRound53 (q : ℚ) : ℚ :=
  if q = 0 then 0
  else ((roundTiesEven (q * 2 ^ (52 - Int.log 2 q)) : Int) : ℚ) * 2 ^ (Int.log 2 q - 52)

/-- JS double division: correctly rounded, per IEEE 754. -/
def fpDiv (a b : ℚ) : ℚ := fpRound53 (a / b)

/-- JS double multiplication: correctly rounded, per IEEE 754. -/
def fpMul (a b : ℚ) : ℚ := fpRound53 (a * b)

/-- The `for` loop of src/script.js `getLevelInfo`: for each tier whose
threshold is at most `points`, remember it and its successor. -/
def scanLevels (points : Int) : List Level → Level × Option Level → Level × Option Level
  | [], acc => acc
  | l :: rest, acc =>
    scanLevels points rest (if l.threshold ≤ points then (l, rest.head?) else acc)

/-- src/script.js `getLevelInfo`.  `(into / span) * 100` is evaluated in
binary64 (both operations correctly rounded); `into`, `span` and `100` are
integers below `2 ^ 53` and hence exact doubles. -/
def getLevelInfo (points : Int) : LevelInfo :=
  let scanned := scanLevels points LEVELS (LEVELS.headD ⟨"Seedling", 0⟩, none)
  match scanned.2 with
  | none =>
    ⟨scanned.1.label, 100, "You reached the top tier – keep the grove thriving!"⟩
  | some next =>
    let span : ℚ := ((next.threshold - scanned.1.threshold : Int) : ℚ)
    let into : ℚ := ((points - scanned.1.threshold : Int) : ℚ)
    let pct := min 100 (jsRound (fpMul (fpDiv into span) 100))
    ⟨scanned.1.label, pct,
      toString (next.threshold - points) ++ " points until " ++ next.label ++ "."⟩

/-- src/script.js `buildCalendarRange`: keys for the last `daysBack` days,
oldest first, ending at `todayKey` (the `for` loop runs `i` from
`daysBack - 1` down to `0`, pushing `today - i`). -/
def buildCalendarRange (todayKey : DayKey) (daysBack : Nat) : List DayKey :=
  (List.range daysBack).reverse.map (fun (i : Nat) => todayKey - (i : Int))

/-- src/script.js `getDateCompletionQuality`: `""` encodes "unrecorded"
(no CSS class is added); otherwise `"missed"`, `"done"` or `"partial"`
from the done count over the full habit registry. -/
def getDateCompletionQuality (s : AppState) (dateKey : DayKey) : String :=
  match objGet s.completions dateKey with
  | none => ""
  | some day =>
    if s.habits.length = 0 then ""
    else
      let doneCount := s.habits.countP (fun h => (objGet day h.id).getD false)
      if doneCount = 0 then "missed"
      else if doneCount = s.habits.length then "done"
      else "partial"

/-- One step of the clear-today handler's `forEach`: deduct 5 (clamped at
zero) for a habit id mapped to `true`. -/
def clearStep (p : Int) (pair : HabitId × Bool) : Int :=
  if pair.2 then max 0 (p - 5) else p

/-- src/script.js `clearTodayButton` click handler (state effect only):
no-op when today has no entry; otherwise deduct 5 per done habit (clamped)
and reset today's entry to the empty record. -/
def clearToday (s : AppState) (todayKey : DayKey) : AppState :=
  match objGet s.completions todayKey with
  | none => s
  | some day =>
    { s with
      completions := objSet s.completions todayKey [],
      points := day.foldl clearStep s.points }

/-- JS `String.prototype.trim`: strip leading and trailing whitespace.
(Defined over the character list so that concrete instances evaluate;
core's `String.trim` is extensionally the same function.) -/
def trimChars (l : List Char) : List Char :=
  ((l.dropWhile Char.isWhitespace).reverse.dropWhile Char.isWhitespace).reverse

/-- JS `name.trim()`. -/
def jsTrim (s : String) : String := String.mk (trimChars s.data)

/-- JS `Math.max(...list)` on a nonempty list (the handler guards with
`state.habits.length`; the empty case is never evaluated). -/
def jsMathMax : List Int → Int
  | [] => 0
  | x :: xs => xs.foldl max x

/-- src/script.js `addHabitForm` submit handler (state effect only):
no-op when the name trims to empty; otherwise append a habit with id
`habit_<Date.now()>` and `order = max(existing orders) + 1` (or `0` when
the registry is empty).  `now` is the value of `Date.now()`.
(`h.order || 0` in the source is the identity on integer orders.) -/
def addHabit (s : AppState) (todayKey : DayKey) (now : Int) (name : String) : AppState :=
  if jsTrim name = "" then s
  else
    let id := "habit_" ++ toString now
    let order : Int :=
      if s.habits.length = 0 then 0
      else jsMathMax (s.habits.map (fun h => h.order)) + 1
    { s with habits := s.habits ++ [⟨id, name, todayKey, order⟩] }

/-- The mutating operations named by the points invariant claim. -/
inductive Op where
  | setDone (todayKey : DayKey) (habitId : HabitId) (done : Bool)
  | clearDay (todayKey : DayKey)

/-- Apply one operation to the state. -/
def applyOp (s : AppState) : Op → AppState
  | .setDone d h v => toggleHabitForToday s d h v
  | .clearDay d => clearToday s d

/-- States the program can reach from its initial state through its
mutating operations (the persistence collaborator is external: stored
snapshots are themselves saves of reached states). -/
inductive Reachable : AppState → Prop
  | start (today : DayKey) : Reachable (createInitialState today)
  | step_toggle {s} (today : DayKey) (habitId : HabitId) (v : Bool) :
      Reachable s → Reachable (toggleHabitForToday s today habitId v)
  | step_clear {s} (today : DayKey) :
      Reachable s → Reachable (clearToday s today)
  | step_add {s} (today now : Int) (name : String) :
      Reachable s → Reachable (addHabit s today now name)

/-- Number of habit ids mapped to `true` in a day record. -/
def recTrues (r : DayRecord) : Nat := r.countP (fun p => p.2)

/-- Total number of `true` completion flags across the whole ledger. -/
def totalTrues (c : Completions) : Nat := (c.map (fun e => recTrues e.2)).sum

/-! ## Association-object lemmas -/

theorem objGet_objSet_self {α β : Type} [DecidableEq α] (l : List (α × β)) (k : α) (v : β) :
    objGet (objSet l k v) k = some v := by
  induction l with
  | nil => simp [objGet, objSet]
  | cons p rest ih =>
    obtain ⟨k', v'⟩ := p
    by_cases h : k' = k
    · simp [objSet, objGet, h]
    · simp [objSet, objGet, h, ih]

theorem objGet_objSet_ne {α β : Type} [DecidableEq α] (l : List (α × β)) (k k' : α) (v : β)
    (h : k ≠ k') : objGet (objSet l k v) k' = objGet l k' := by
  induction l with
  | nil => simp [objGet, objSet, h]
  | cons p rest ih =>
    obtain ⟨k0, v0⟩ := p
    by_cases h0 : k0 = k
    · subst h0
      simp [objSet, objGet, h]
    · simp [objSet, objGet, h0, ih]

theorem objGet_mem_keys {α β : Type} [DecidableEq α] (l : List (α × β)) (k : α) (v : β)
    (h : objGet l k = some v) : k ∈ l.map Prod.fst := by
  induction l with
  | nil => simp [objGet] at h
  | cons p rest ih =>
    obtain ⟨k0, v0⟩ := p
    by_cases h0 : k0 = k
    · simp [h0]
    · simp only [objGet, if_neg h0] at h
      simp [ih h]

/-! ## Counting lemmas for the scoring invariant -/

theorem recTrues_nil : recTrues [] = 0 := rfl

theorem recTrues_cons (k : HabitId) (b : Bool) (r : DayRecord) :
    recTrues ((k, b) :: r) = (if b then 1 else 0) + recTrues r := by
  simp [recTrues, List.countP_cons]
  cases b <;> simp <;> omega

theorem totalTrues_nil : totalTrues [] = 0 := rfl

theorem totalTrues_cons (d : DayKey) (r : DayRecord) (c : Completions) :
    totalTrues ((d, r) :: c) = recTrues r + totalTrues c := by
  simp [totalTrues]

theorem recTrues_objSet (r : DayRecord) (h : HabitId) (v : Bool) :
    recTrues (objSet r h v) + (if (objGet r h).getD false then 1 else 0)
      = recTrues r + (if v then 1 else 0) := by
  induction r with
  | nil => simp [objSet, objGet, recTrues_cons, recTrues_nil]
  | cons p rest ih =>
    obtain ⟨k0, b0⟩ := p
    by_cases h0 : k0 = h
    · subst h0
      simp only [objSet, if_pos rfl, if_true, eq_self_iff_true, objGet,
        Option.getD_some, recTrues_cons]
      omega
    · simp only [objSet, if_neg h0, objGet, recTrues_cons] at *
      omega

theorem recTrues_pos_of_done (r : DayRecord) (h : HabitId)
    (hd : (objGet r h).getD false = true) : 1 ≤ recTrues r := by
  induction r with
  | nil => simp [objGet] at hd
  | cons p rest ih =>
    obtain ⟨k0, b0⟩ := p
    by_cases h0 : k0 = h
    · simp only [objGet, if_pos h0, Option.getD_some] at hd
      simp [recTrues_cons, hd]
    · simp only [objGet, if_neg h0] at hd
      have := ih hd
      simp only [recTrues_cons] at *
      omega

theorem totalTrues_objSet (c : Completions) (d : DayKey) (rec : DayRecord) :
    totalTrues (objSet c d rec) + recTrues ((objGet c d).getD [])
      = totalTrues c + recTrues rec := by
  induction c with
  | nil => simp [totalTrues_cons, totalTrues_nil, objSet, objGet, recTrues_nil]
  | cons p rest ih =>
    obtain ⟨d0, r0⟩ := p
    by_cases h0 : d0 = d
    · subst h0
      simp only [objSet, if_pos rfl, if_true, eq_self_iff_true, objGet,
        Option.getD_some, totalTrues_cons]
      omega
    · simp only [objSet, if_neg h0, objGet, totalTrues_cons] at *
      omega

theorem recTrues_getD_le_totalTrues (c : Completions) (d : DayKey) :
    recTrues ((objGet c d).getD []) ≤ totalTrues c := by
  induction c with
  | nil => simp [objGet, recTrues_nil]
  | cons p rest ih =>
    obtain ⟨d0, r0⟩ := p
    by_cases h0 : d0 = d
    · simp only [objGet, if_pos h0, Option.getD_some, totalTrues_cons]
      omega
    · simp only [objGet, if_neg h0, totalTrues_cons] at *
      omega

/-! ## `ensureDateEntry` and `isHabitDoneOnDate` lemmas -/

theorem ensureDateEntry_habits (s : AppState) (d : DayKey) :
    (ensureDateEntry s d).habits = s.habits := by
  cases hg : objGet s.completions d <;> simp [ensureDateEntry, hg]

theorem ensureDateEntry_points (s : AppState) (d : DayKey) :
    (ensureDateEntry s d).points = s.points := by
  cases hg : objGet s.completions d <;> simp [ensureDateEntry, hg]

theorem objGet_ensureDateEntry_self (s : AppState) (d : DayKey) :
    objGet (ensureDateEntry s d).completions d = some ((objGet s.completions d).getD []) := by
  cases hg : objGet s.completions d <;>
    simp [ensureDateEntry, hg, objGet_objSet_self]

theorem totalTrues_ensureDateEntry (s : AppState) (d : DayKey) :
    totalTrues (ensureDateEntry s d).completions = totalTrues s.completions := by
  cases hg : objGet s.completions d
  · have := totalTrues_objSet s.completions d []
    simp only [hg, Option.getD_none] at this
    simp only [ensureDateEntry, hg]
    simp only [recTrues, List.countP_nil] at this
    omega
  · simp [ensureDateEntry, hg]

theorem isHabitDoneOnDate_eq (s : AppState) (h : HabitId) (d : DayKey) :
    isHabitDoneOnDate s h d = (objGet ((objGet s.completions d).getD []) h).getD false := by
  cases hg : objGet s.completions d <;> simp [isHabitDoneOnDate, hg, objGet]

/-- Unfolding of `toggleHabitForToday` in terms of the pre-state. -/
theorem toggleHabitForToday_eq (s : AppState) (d : DayKey) (h : HabitId) (v : Bool) :
    toggleHabitForToday s d h v =
      { habits := s.habits,
        completions := objSet (ensureDateEntry s d).completions d
          (objSet ((objGet s.completions d).getD []) h v),
        points :=
          if !(isHabitDoneOnDate s h d) && v then s.points + 5
          else if isHabitDoneOnDate s h d && !v then max 0 (s.points - 5)
          else s.points } := by
  simp only [toggleHabitForToday, objGet_ensureDateEntry_self, Option.getD_some,
    ensureDateEntry_points, ensureDateEntry_habits, isHabitDoneOnDate_eq]

/-! ## Clear-today fold lemmas -/

theorem clearFold_nonneg (r : DayRecord) (p : Int) (hp : 0 ≤ p) :
    0 ≤ r.foldl clearStep p := by
  induction r generalizing p with
  | nil => simpa using hp
  | cons pair rest ih =>
    obtain ⟨k, b⟩ := pair
    rw [List.foldl_cons]
    cases b
    · exact ih _ (by simpa [clearStep] using hp)
    · exact ih _ (by simp [clearStep])

theorem clearFold_exact (r : DayRecord) (p : Int) (hp : 5 * (recTrues r : Int) ≤ p) :
    r.foldl clearStep p = p - 5 * recTrues r := by
  induction r generalizing p with
  | nil => simp [recTrues_nil]
  | cons pair rest ih =>
    obtain ⟨k, b⟩ := pair
    rw [List.foldl_cons]
    rw [recTrues_cons] at hp ⊢
    cases b
    · simp only [Bool.false_eq_true, if_false, Nat.zero_add] at hp ⊢
      simpa [clearStep] using ih p hp
    · simp only [if_true, if_pos rfl] at hp ⊢
      push_cast at hp ⊢
      have hstep : clearStep p (k, true) = p - 5 := by
        simp only [clearStep, if_true, if_pos rfl]
        exact max_eq_right (by omega)
      rw [hstep, ih (p - 5) (by push_cast; omega)]
      push_cast
      ring

theorem clearToday_habits (s : AppState) (d : DayKey) :
    (clearToday s d).habits = s.habits := by
  cases hg : objGet s.completions d <;> simp [clearToday, hg]

/-! ## The scoring invariant on reachable states -/

/-- In every state the program can reach, the points are at least five per
recorded completion; in particular `points ≥ 0`, and the `Math.max(0, ·)`
clamps in the source never truncate. -/
theorem points_invariant {s : AppState} (hr : Reachable s) :
    5 * (totalTrues s.completions : Int) ≤ s.points := by
  induction hr with
  | start today => simp [createInitialState, totalTrues]
  | step_toggle today h v _ ih =>
    rename_i s' _
    rw [toggleHabitForToday_eq]
    have hset := totalTrues_objSet (ensureDateEntry s' today).completions today
      (objSet ((objGet s'.completions today).getD []) h v)
    rw [objGet_ensureDateEntry_self, Option.getD_some, totalTrues_ensureDateEntry] at hset
    have hrec := recTrues_objSet ((objGet s'.completions today).getD []) h v
    have hle := recTrues_getD_le_totalTrues s'.completions today
    rw [← isHabitDoneOnDate_eq] at hrec
    cases hw : isHabitDoneOnDate s' h today <;> cases v <;>
        simp only [hw, Bool.false_eq_true, if_true, if_false] at hrec <;>
        simp only [hw, Bool.not_true, Bool.not_false, Bool.and_true, Bool.and_false,
          Bool.true_and, Bool.false_and, Bool.and_self, Bool.false_eq_true,
          if_true, if_false]
    · omega
    · omega
    · -- was done, now cleared: the clamp does not truncate
      have hpos : 1 ≤ recTrues ((objGet s'.completions today).getD []) := by
        apply recTrues_pos_of_done
        rw [← isHabitDoneOnDate_eq]
        exact hw
      have hmax : max 0 (s'.points - 5) = s'.points - 5 := max_eq_right (by omega)
      rw [hmax]
      omega
    · omega
  | step_clear today _ ih =>
    rename_i s' _
    unfold clearToday
    cases hg : objGet s'.completions today with
    | none => simpa using ih
    | some day =>
      simp only
      have hset := totalTrues_objSet s'.completions today []
      rw [hg, Option.getD_some] at hset
      have hle : recTrues day ≤ totalTrues s'.completions := by
        have := recTrues_getD_le_totalTrues s'.completions today
        rwa [hg, Option.getD_some] at this
      rw [clearFold_exact day s'.points (by omega)]
      rw [recTrues_nil] at hset
      omega
  | step_add today now name _ ih =>
    rename_i s' _
    unfold addHabit
    by_cases ht : jsTrim name = "" <;> simp [ht, ih]

/-- On any reachable state, a habit recorded done forces at least 5 points. -/
theorem points_ge_five_of_done {s : AppState} (hr : Reachable s) (h : HabitId) (d : DayKey)
    (hd : isHabitDoneOnDate s h d = true) : 5 ≤ s.points := by
  have hinv := points_invariant hr
  rw [isHabitDoneOnDate_eq] at hd
  have h1 : 1 ≤ recTrues ((objGet s.completions d).getD []) := recTrues_pos_of_done _ h hd
  have h2 := recTrues_getD_le_totalTrues s.completions d
  omega

/-! ## Streak lemmas -/

theorem isHabitDoneOnDate_objGet_isSome {s : AppState} {h : HabitId} {d : DayKey}
    (hd : isHabitDoneOnDate s h d = true) : ∃ day, objGet s.completions d = some day := by
  cases hg : objGet s.completions d with
  | none => simp [isHabitDoneOnDate, hg] at hd
  | some day => exact ⟨day, rfl⟩

/-- Pigeonhole bound for the streak walk: a run of consecutive done days
ending at `today` can be no longer than the number of recorded day entries,
because each done day owns a distinct ledger entry.  This is what stops the
source's `while (true)` loop: it halts at or before the earliest recorded
day, within `s.completions.length + 1` iterations. -/
theorem doneRun_le_completions_length (s : AppState) (h : HabitId) (today : DayKey) (m : Nat)
    (H : ∀ i : Nat, i < m → isHabitDoneOnDate s h (today - i) = true) :
    m ≤ s.completions.length := by
  classical
  have hsub : (Finset.range m).image (fun i : Nat => today - (i : Int)) ⊆
      (s.completions.map Prod.fst).toFinset := by
    intro x hx
    simp only [Finset.mem_image, Finset.mem_range] at hx
    obtain ⟨i, hi, rfl⟩ := hx
    obtain ⟨day, hday⟩ := isHabitDoneOnDate_objGet_isSome (H i hi)
    exact List.mem_toFinset.mpr (objGet_mem_keys _ _ _ hday)
  have hinj : Function.Injective (fun i : Nat => today - (i : Int)) := by
    intro a b hab
    have hab' : today - (a : Int) = today - (b : Int) := hab
    have hab2 : (a : Int) = (b : Int) := by linarith
    exact_mod_cast hab2
  have hcard := Finset.card_le_card hsub
  rw [Finset.card_image_of_injective _ hinj, Finset.card_range] at hcard
  calc m ≤ (s.completions.map Prod.fst).toFinset.card := hcard
    _ ≤ (s.completions.map Prod.fst).length := List.toFinset_card_le _
    _ = s.completions.length := List.length_map _ _

theorem computeStreakAux_le (s : AppState) (h : HabitId) :
    ∀ (fuel : Nat) (cursor : Int), computeStreakAux s h cursor fuel ≤ fuel := by
  intro fuel
  induction fuel with
  | zero => intro cursor; simp [computeStreakAux]
  | succ n ih =>
    intro cursor
    rw [computeStreakAux]
    by_cases hd : isHabitDoneOnDate s h cursor = true
    · rw [if_pos hd]
      have := ih (cursor - 1)
      omega
    · rw [if_neg hd]
      omega

theorem computeStreakAux_done (s : AppState) (h : HabitId) :
    ∀ (fuel : Nat) (cursor : Int) (i : Nat), i < computeStreakAux s h cursor fuel →
      isHabitDoneOnDate s h (cursor - i) = true := by
  intro fuel
  induction fuel with
  | zero => intro cursor i hi; simp [computeStreakAux] at hi
  | succ n ih =>
    intro cursor i hi
    rw [computeStreakAux] at hi
    by_cases hd : isHabitDoneOnDate s h cursor = true
    · rw [if_pos hd] at hi
      cases i with
      | zero => simpa using hd
      | succ j =>
        have hj : j < computeStreakAux s h (cursor - 1) n := by omega
        have hdj := ih (cursor - 1) j hj
        have harith : cursor - 1 - (j : Int) = cursor - ((j + 1 : Nat) : Int) := by
          push_cast
          ring
        rwa [harith] at hdj
    · rw [if_neg hd] at hi
      omega

theorem computeStreakAux_stop (s : AppState) (h : HabitId) :
    ∀ (fuel : Nat) (cursor : Int), computeStreakAux s h cursor fuel < fuel →
      isHabitDoneOnDate s h (cursor - (computeStreakAux s h cursor fuel : Int)) = false := by
  intro fuel
  induction fuel with
  | zero => intro cursor hlt; exact absurd hlt (Nat.not_lt_zero _)
  | succ n ih =>
    intro cursor hlt
    rw [computeStreakAux] at hlt ⊢
    by_cases hd : isHabitDoneOnDate s h cursor = true
    · rw [if_pos hd] at hlt ⊢
      have hlt' : computeStreakAux s h (cursor - 1) n < n := by omega
      have hstop := ih (cursor - 1) hlt'
      have harith : cursor - 1 - (computeStreakAux s h (cursor - 1) n : Int)
          = cursor - ((computeStreakAux s h (cursor - 1) n + 1 : Nat) : Int) := by
        push_cast
        ring
      rwa [harith] at hstop
    · rw [if_neg hd] at hlt ⊢
      simp only [Nat.cast_zero, sub_zero]
      rw [Bool.not_eq_true] at hd
      exact hd

/-! ## Example states for concrete instances -/

/-- The initial state at day 0. -/
def exState0 : AppState := createInitialState 0

/-- The initial state after marking "water" done on day 0. -/
def exState1 : AppState := toggleHabitForToday exState0 0 "water" true

/-- A ledger where habit "h" is done on days 3, 2 and 1 but day 0 is
unrecorded; used with today = 3. -/
def exStreak : AppState :=
  { habits := exState0.habits,
    completions := [(3, [("h", true)]), (2, [("h", true)]), (1, [("h", true)])],
    points := 15 }

/-! ## Claim C1 -/

/-- Claim C1: immediately after `toggleHabitForToday(h, d, v)` (the source's
`setDone` with `d = today`), `isDone(h, d)` returns `v`; the applied points
delta is `+5` when the prior state was `false` and `v` is `true`, `-5` when
the prior state was `true` and `v` is `false` (exact on every reachable
state, where the zero-clamp never truncates by `points_ge_five_of_done`),
and `0` otherwise — re-marking an already-done habit done awards nothing. -/
theorem setDone_postcondition (s : AppState) (today : DayKey) (h : HabitId) (v : Bool) :
    isHabitDoneOnDate (toggleHabitForToday s today h v) h today = v
    ∧ (isHabitDoneOnDate s h today = false → v = true →
        (toggleHabitForToday s today h v).points = s.points + 5)
    ∧ (Reachable s → isHabitDoneOnDate s h today = true → v = false →
        (toggleHabitForToday s today h v).points = s.points - 5)
    ∧ (isHabitDoneOnDate s h today = v →
        (toggleHabitForToday s today h v).points = s.points) := by
  rw [toggleHabitForToday_eq]
  refine ⟨?_, ?_, ?_, ?_⟩
  · simp [isHabitDoneOnDate, objGet_objSet_self]
  · intro hw hv
    subst hv
    simp [hw]
  · intro hr hw hv
    subst hv
    simp only [hw, Bool.not_true, Bool.false_and, Bool.and_true, if_false, if_true]
    have h5 := points_ge_five_of_done hr h today hw
    exact max_eq_right (by omega)
  · intro hwv
    rw [hwv]
    cases v <;> simp

/-- Witness for C1 on a concrete reachable state: unmarking the habit
"water", done on day 0 with 5 points, flips `isDone` to `false` and costs
exactly 5 points. -/
theorem setDone_postcondition_witness :
    isHabitDoneOnDate (toggleHabitForToday exState1 0 "water" false) "water" 0 = false
    ∧ (toggleHabitForToday exState1 0 "water" false).points = exState1.points - 5 := by
  have hr : Reachable exState1 := Reachable.step_toggle 0 "water" true (Reachable.start 0)
  exact ⟨(setDone_postcondition exState1 0 "water" false).1,
    (setDone_postcondition exState1 0 "water" false).2.2.1 hr (by decide) rfl⟩

/-! ## Claim C2 -/

/-- Claim C2: starting from any state with non-negative points, after any
sequence of `setDone` (`toggleHabitForToday`) and `clearDay` (clear-today
handler) operations the points are still non-negative — and since every
prefix of such a sequence is such a sequence, `points ≥ 0` holds after
every call. -/
theorem points_never_negative (s : AppState) (h0 : 0 ≤ s.points) (ops : List Op) :
    0 ≤ (ops.foldl applyOp s).points := by
  induction ops generalizing s with
  | nil => simpa using h0
  | cons op rest ih =>
    rw [List.foldl_cons]
    apply ih
    cases op with
    | setDone d h v =>
      show 0 ≤ (toggleHabitForToday s d h v).points
      rw [toggleHabitForToday_eq]
      cases hw : isHabitDoneOnDate s h d <;> cases v
      · simpa [hw] using h0
      · simp only [hw, Bool.not_false, Bool.true_and, if_true]
        omega
      · simp only [hw, Bool.not_true, Bool.false_and, Bool.and_true, if_false, if_true]
        exact le_max_left 0 _
      · simpa [hw] using h0
    | clearDay d =>
      show 0 ≤ (clearToday s d).points
      cases hg : objGet s.completions d with
      | none => simpa [clearToday, hg] using h0
      | some day =>
        simpa [clearToday, hg] using clearFold_nonneg day s.points h0

/-- Witness for C2: a concrete mark-then-clear sequence from the initial
state keeps points non-negative. -/
theorem points_never_negative_witness :
    0 ≤ (([Op.setDone 0 "water" true, Op.clearDay 0]).foldl applyOp exState0).points :=
  points_never_negative exState0 (by decide) [Op.setDone 0 "water" true, Op.clearDay 0]

/-! ## Claim C4 -/

/-- Claim C4: `computeStreak` counts exactly the consecutive days, ending at
and including today, on which the habit is done: every day strictly within
the streak is done, the day just beyond the streak is not done, a habit not
done today has streak 0, and a habit with no completions has streak 0.
(The concrete "done today and the 2 preceding days, missed 3 days ago gives
exactly 3" instance is checked in the witness.) -/
theorem streak_semantics (s : AppState) (today : DayKey) (h : HabitId) :
    (∀ i : Nat, i < computeStreak s today h →
        isHabitDoneOnDate s h (today - i) = true)
    ∧ isHabitDoneOnDate s h (today - (computeStreak s today h : Int)) = false
    ∧ (isHabitDoneOnDate s h today = false → computeStreak s today h = 0)
    ∧ ((∀ d : DayKey, isHabitDoneOnDate s h d = false) → computeStreak s today h = 0) := by
  have hdone : ∀ i : Nat, i < computeStreak s today h →
      isHabitDoneOnDate s h (today - i) = true :=
    fun i hi => computeStreakAux_done s h _ today i hi
  have hstop : isHabitDoneOnDate s h (today - (computeStreak s today h : Int)) = false := by
    rcases Nat.lt_or_ge (computeStreak s today h) s.completions.length with hlt | hge
    · exact computeStreakAux_stop s h _ today hlt
    · by_contra hne
      rw [Bool.not_eq_false] at hne
      have H : ∀ i : Nat, i < computeStreak s today h + 1 →
          isHabitDoneOnDate s h (today - i) = true := by
        intro i hi
        rcases Nat.lt_or_ge i (computeStreak s today h) with h1 | h1
        · exact hdone i h1
        · have hieq : i = computeStreak s today h := by omega
          subst hieq
          exact hne
      have hbound := doneRun_le_completions_length s h today _ H
      have hle : computeStreak s today h ≤ s.completions.length :=
        computeStreakAux_le s h _ today
      omega
  refine ⟨hdone, hstop, ?_, ?_⟩
  · intro h0
    by_contra hne
    have hpos : 0 < computeStreak s today h := Nat.pos_of_ne_zero hne
    have hd0 := hdone 0 hpos
    simp only [Nat.cast_zero, sub_zero] at hd0
    rw [h0] at hd0
    simp at hd0
  · intro hall
    by_contra hne
    have hpos : 0 < computeStreak s today h := Nat.pos_of_ne_zero hne
    have hd0 := hdone 0 hpos
    rw [hall] at hd0
    simp at hd0

/-- Witness for C4 on the concrete ledger `exStreak` (today = 3, done on
days 3, 2, 1, unrecorded on day 0): the streak is exactly 3 — days at
offsets 0, 1, 2 are done and the day at the streak's end is not. -/
theorem streak_semantics_witness :
    computeStreak exStreak 3 "h" = 3
    ∧ isHabitDoneOnDate exStreak "h" (3 - (2 : Nat)) = true
    ∧ isHabitDoneOnDate exStreak "h" (3 - (computeStreak exStreak 3 "h" : Int)) = false :=
  ⟨by decide, (streak_semantics exStreak 3 "h").1 2 (by decide),
    (streak_semantics exStreak 3 "h").2.1⟩

/-! ## Claim C5 -/

/-- Claim C5: the backward walk of `computeStreak` is capped at the earliest
recorded day: any run of consecutive done days ending at today is at most
the number of recorded day entries, so the source's `while (true)` loop
always terminates, within `s.completions.length + 1` iterations — a bound
fixed by the ledger at hand (there is no constant cap independent of the
ledger: the bound is its entry count). -/
theorem streak_walk_bounded (s : AppState) (today : DayKey) (h : HabitId) (m : Nat)
    (H : ∀ i : Nat, i < m → isHabitDoneOnDate s h (today - i) = true) :
    m ≤ s.completions.length ∧ computeStreak s today h ≤ s.completions.length :=
  ⟨doneRun_le_completions_length s h today m H, computeStreakAux_le s h _ today⟩

/-- Witness for C5: on the concrete three-entry ledger, the three-day done
run and the computed streak are both bounded by the ledger size. -/
theorem streak_walk_bounded_witness :
    3 ≤ exStreak.completions.length
    ∧ computeStreak exStreak 3 "h" ≤ exStreak.completions.length :=
  streak_walk_bounded exStreak 3 "h" 3 (by decide)

/-! ## Claim C3 -/

theorem clearFold_no_trues (r : DayRecord) (p : Int) (h0 : recTrues r = 0) :
    r.foldl clearStep p = p := by
  induction r generalizing p with
  | nil => simp
  | cons pair rest ih =>
    obtain ⟨k, b⟩ := pair
    rw [recTrues_cons] at h0
    cases b
    · rw [List.foldl_cons]
      have hstep : clearStep p (k, false) = p := by simp [clearStep]
      rw [hstep]
      exact ih p (by omega)
    · simp at h0

theorem no_done_of_recTrues_zero (r : DayRecord) (h : HabitId) (h0 : recTrues r = 0) :
    (objGet r h).getD false = false := by
  by_contra hne
  rw [Bool.not_eq_false] at hne
  have := recTrues_pos_of_done r h hne
  omega

/-- Claim C3: clearing a day whose entry exists deducts 5 points per habit
id mapped to `true` in that entry (exact on every reachable state, where
the zero-clamp never truncates), and leaves the day entry present but
empty — so the day's subsequent quality is "missed", not "" (unrecorded),
whenever at least one habit exists.  When the entry is absent the handler
returns without touching the state at all, and when the entry holds no
`true` value the points are unchanged and every `isDone` observation of the
ledger is preserved (the entry's representation becomes the empty record). -/
theorem clearDay_postcondition (s : AppState) (today : DayKey) :
    (objGet s.completions today = none → clearToday s today = s)
    ∧ (∀ day, objGet s.completions today = some day →
        (Reachable s →
          (clearToday s today).points = s.points - 5 * (recTrues day : Int))
        ∧ objGet (clearToday s today).completions today = some []
        ∧ (s.habits ≠ [] →
            getDateCompletionQuality (clearToday s today) today = "missed")
        ∧ (recTrues day = 0 →
            (clearToday s today).points = s.points
            ∧ ∀ (h : HabitId) (d : DayKey),
                isHabitDoneOnDate (clearToday s today) h d = isHabitDoneOnDate s h d)) := by
  constructor
  · intro hg
    simp [clearToday, hg]
  · intro day hg
    have hclear : clearToday s today =
        { s with
          completions := objSet s.completions today [],
          points := day.foldl clearStep s.points } := by
      simp [clearToday, hg]
    refine ⟨?_, ?_, ?_, ?_⟩
    · intro hr
      have hle : recTrues day ≤ totalTrues s.completions := by
        have hg2 := recTrues_getD_le_totalTrues s.completions today
        rwa [hg, Option.getD_some] at hg2
      have hinv := points_invariant hr
      rw [hclear]
      exact clearFold_exact day s.points (by omega)
    · rw [hclear]
      exact objGet_objSet_self _ _ _
    · intro hne
      have hlen : s.habits.length ≠ 0 := by
        simpa [List.length_eq_zero] using hne
      rw [hclear]
      simp [getDateCompletionQuality, objGet_objSet_self, objGet, hlen]
    · intro h0
      refine ⟨?_, ?_⟩
      · rw [hclear]
        exact clearFold_no_trues day s.points h0
      · intro h d
        rw [hclear]
        by_cases hd : today = d
        · subst hd
          rw [isHabitDoneOnDate_eq, isHabitDoneOnDate_eq]
          simp only [objGet_objSet_self, hg, Option.getD_some]
          rw [no_done_of_recTrues_zero day h h0]
          simp [objGet]
        · rw [isHabitDoneOnDate_eq, isHabitDoneOnDate_eq]
          simp only [objGet_objSet_ne _ _ _ _ hd]

/-- Witness for C3 on a concrete reachable state (habit "water" done on
day 0, 5 points): clearing day 0 deducts 5 points, leaves an empty entry
for day 0 and the day's quality becomes "missed". -/
theorem clearDay_postcondition_witness :
    (clearToday exState1 0).points = exState1.points - 5
    ∧ objGet (clearToday exState1 0).completions 0 = some []
    ∧ getDateCompletionQuality (clearToday exState1 0) 0 = "missed" := by
  have hr : Reachable exState1 := Reachable.step_toggle 0 "water" true (Reachable.start 0)
  have hc := (clearDay_postcondition exState1 0).2 [("water", true)] (by decide)
  refine ⟨?_, hc.2.1, hc.2.2.1 (by decide)⟩
  have h1 := hc.1 hr
  simpa [recTrues_cons, recTrues_nil] using h1

/-! ## Claim C7 -/

/-- Claim C7: `getDateCompletionQuality` classifies a day as "" (unrecorded)
when the day has no ledger entry or the registry is empty; otherwise,
counting over the full current registry the habits whose `isDone` is true
on that day, it returns "missed" when the count is 0, "done" when the count
equals the number of habits, and "partial" otherwise. -/
theorem dayQuality_classification (s : AppState) (d : DayKey) :
    (objGet s.completions d = none → getDateCompletionQuality s d = "")
    ∧ (s.habits = [] → getDateCompletionQuality s d = "")
    ∧ (∀ day, objGet s.completions d = some day → s.habits ≠ [] →
        (s.habits.countP (fun h => isHabitDoneOnDate s h.id d) = 0 →
            getDateCompletionQuality s d = "missed")
        ∧ (s.habits.countP (fun h => isHabitDoneOnDate s h.id d) = s.habits.length →
            getDateCompletionQuality s d = "done")
        ∧ (s.habits.countP (fun h => isHabitDoneOnDate s h.id d) ≠ 0 →
            s.habits.countP (fun h => isHabitDoneOnDate s h.id d) ≠ s.habits.length →
            getDateCompletionQuality s d = "partial")) := by
  refine ⟨?_, ?_, ?_⟩
  · intro hg
    simp [getDateCompletionQuality, hg]
  · intro hh
    cases hg : objGet s.completions d <;>
      simp [getDateCompletionQuality, hg, hh]
  · intro day hg hne
    have hlen : s.habits.length ≠ 0 := by
      simpa [List.length_eq_zero] using hne
    have hcnt : s.habits.countP (fun h => isHabitDoneOnDate s h.id d)
        = s.habits.countP (fun h => (objGet day h.id).getD false) := by
      apply List.countP_congr
      intro h _
      simp [isHabitDoneOnDate, hg]
    have hq : getDateCompletionQuality s d =
        if s.habits.countP (fun h => isHabitDoneOnDate s h.id d) = 0 then "missed"
        else if s.habits.countP (fun h => isHabitDoneOnDate s h.id d) = s.habits.length
          then "done"
        else "partial" := by
      rw [hcnt]
      simp [getDateCompletionQuality, hg, hlen]
    refine ⟨?_, ?_, ?_⟩
    · intro hc
      rw [hq, if_pos hc]
    · intro hc
      rw [hq, if_neg (by omega), if_pos hc]
    · intro hc1 hc2
      rw [hq, if_neg hc1, if_neg hc2]

/-- A day with two of the three default habits done. -/
def exPartial : AppState :=
  { habits := exState0.habits,
    completions := [(0, [("water", true), ("move", true)])],
    points := 10 }

/-- Witness for C7: with the three default habits and two done on day 0,
the quality is "partial". -/
theorem dayQuality_classification_witness :
    getDateCompletionQuality exPartial 0 = "partial" := by
  have hc := (dayQuality_classification exPartial 0).2.2
    [("water", true), ("move", true)] (by decide) (by decide)
  exact hc.2.2 (by decide) (by decide)

/-! ## Claim C8 -/

theorem buildCalendarRange_succ (t : DayKey) (n : Nat) :
    buildCalendarRange t (n + 1) = (t - n) :: buildCalendarRange t n := by
  simp [buildCalendarRange, List.range_succ]

theorem buildCalendarRange_length (t : DayKey) (n : Nat) :
    (buildCalendarRange t n).length = n := by
  rw [buildCalendarRange, List.length_map, List.length_reverse, List.length_range]

theorem buildCalendarRange_getLast (t : DayKey) (n : Nat) (hn : n ≠ 0) :
    (buildCalendarRange t n).getLast? = some t := by
  obtain ⟨m, rfl⟩ := Nat.exists_eq_succ_of_ne_zero hn
  rw [← List.head?_reverse]
  have hrev : (buildCalendarRange t (m + 1)).reverse
      = (List.range (m + 1)).map (fun (i : Nat) => t - (i : Int)) := by
    rw [buildCalendarRange, ← List.map_reverse, List.reverse_reverse]
  rw [hrev, List.range_succ_eq_map]
  simp

theorem buildCalendarRange_chain (t : DayKey) (n : Nat) :
    List.Chain' (fun a b => b = a + 1) (buildCalendarRange t n) := by
  induction n with
  | zero => simp [buildCalendarRange]
  | succ m ih =>
    rw [buildCalendarRange_succ]
    cases m with
    | zero => simp [buildCalendarRange]
    | succ k =>
      rw [buildCalendarRange_succ] at ih ⊢
      rw [List.chain'_cons]
      refine ⟨by push_cast; ring, ih⟩

/-- Claim C8: for every end day, the 28-day calendar window has exactly 28
day keys, consecutive (each the day after its predecessor), in strictly
ascending day order, and its last element is the end day. -/
theorem window_28 (today : DayKey) :
    (buildCalendarRange today 28).length = 28
    ∧ (buildCalendarRange today 28).getLast? = some today
    ∧ List.Chain' (fun a b => b = a + 1) (buildCalendarRange today 28)
    ∧ List.Chain' (fun a b => a < b) (buildCalendarRange today 28) :=
  ⟨buildCalendarRange_length today 28,
   buildCalendarRange_getLast today 28 (by omega),
   buildCalendarRange_chain today 28,
   (buildCalendarRange_chain today 28).imp (fun a b hab => by
     have hab' : b = a + 1 := hab
     show a < b
     rw [hab']
     exact lt_add_one a)⟩

/-! ## Claim C10 -/

/-- Claim C10: rendering the habit list materializes an empty ledger entry
for today (`renderHabitList` calls `ensureDateEntry(todayKey)` on the read
path), so a previously unrecorded today — quality "" — becomes "missed"
after rendering, as long as at least one habit exists. -/
theorem render_materializes_today (s : AppState) (today : DayKey)
    (hh : s.habits ≠ []) (habsent : objGet s.completions today = none) :
    getDateCompletionQuality s today = ""
    ∧ objGet (renderHabitListState s today).completions today = some []
    ∧ getDateCompletionQuality (renderHabitListState s today) today = "missed" := by
  have hlen : s.habits.length ≠ 0 := by
    simpa [List.length_eq_zero] using hh
  refine ⟨by simp [getDateCompletionQuality, habsent], ?_, ?_⟩
  · simp [renderHabitListState, ensureDateEntry, habsent, objGet_objSet_self]
  · simp [renderHabitListState, ensureDateEntry, habsent, getDateCompletionQuality,
      objGet_objSet_self, objGet, hlen]

/-- Witness for C10: rendering the fresh initial state (no completions,
three habits) flips today's quality from unrecorded to "missed". -/
theorem render_materializes_today_witness :
    getDateCompletionQuality (renderHabitListState exState0 0) 0 = "missed" :=
  (render_materializes_today exState0 0 (by decide) rfl).2.2

/-! ## Claim C6 -/

/-- Spec-side definition (§4.4): the tiers whose threshold is at most
`points`; with the strictly ascending `LEVELS` table, the last of these is
the tier with the greatest threshold ≤ `points`. -/
def tiersAtOrBelow (points : Int) : List Level :=
  LEVELS.filter (fun l => decide (l.threshold ≤ points))

/-- Spec-side definition: the current tier — greatest threshold ≤ points. -/
def currentTierSpec (points : Int) : Level :=
  (tiersAtOrBelow points).getLastD ⟨"Seedling", 0⟩

/-- Spec-side definition: the tier immediately above the current one, if
any. -/
def nextTierSpec (points : Int) : Option Level :=
  (LEVELS.drop (tiersAtOrBelow points).length).head?

/-- `Int.log 2` is characterized by the bracketing powers. -/
theorem int_log_eq {q : ℚ} {e : ℤ} (hq : 0 < q) (h1 : (2:ℚ)^e ≤ q) (h2 : q < (2:ℚ)^(e+1)) :
    Int.log 2 q = e := by
  have ha := Int.zpow_log_le_self (R := ℚ) (b := 2) (by norm_num) hq
  have hb := Int.lt_zpow_succ_log_self (R := ℚ) (b := 2) (by norm_num) q
  push_cast at ha hb
  rcases lt_trichotomy (Int.log 2 q) e with hlt | heq | hgt
  · exfalso
    have hle : (2:ℚ)^(Int.log 2 q + 1) ≤ (2:ℚ)^e :=
      zpow_le_zpow_right₀ (by norm_num) (by omega)
    linarith
  · exact heq
  · exfalso
    have hle : (2:ℚ)^(e+1) ≤ (2:ℚ)^(Int.log 2 q) :=
      zpow_le_zpow_right₀ (by norm_num) (by omega)
    linarith

/-- Rounding to the nearest integer moves a value by at most one half. -/
theorem roundTiesEven_err (x : ℚ) : |(roundTiesEven x : ℚ) - x| ≤ 1/2 := by
  have h0 : (0:ℚ) ≤ x - ⌊x⌋ := by
    have := Int.fract_nonneg x
    rwa [Int.fract] at this
  have h1 : x - ⌊x⌋ < 1 := by
    have := Int.fract_lt_one x
    rwa [Int.fract] at this
  rw [roundTiesEven]
  split_ifs <;> push_cast <;> rw [abs_le] <;> constructor <;> linarith

/-- Binary64 rounding has relative error at most `2 ^ (-53)` on the
positive normal range. -/
theorem fpRound53_err (q : ℚ) (hq : 0 < q) : |fpRound53 q - q| ≤ q / 2^53 := by
  rw [fpRound53, if_neg hq.ne']
  have h1 : (2:ℚ)^(Int.log 2 q) ≤ q := by
    have := Int.zpow_log_le_self (R := ℚ) (b := 2) (by norm_num) hq
    push_cast at this
    exact this
  have hsplit : ((roundTiesEven (q * 2 ^ (52 - Int.log 2 q)) : Int) : ℚ)
        * 2 ^ (Int.log 2 q - 52) - q
      = (((roundTiesEven (q * 2 ^ (52 - Int.log 2 q)) : Int) : ℚ)
          - q * 2 ^ (52 - Int.log 2 q)) * 2 ^ (Int.log 2 q - 52) := by
    rw [sub_mul, mul_assoc, ← zpow_add₀ (by norm_num : (2:ℚ) ≠ 0)]
    have hz : 52 - Int.log 2 q + (Int.log 2 q - 52) = 0 := by ring
    rw [hz, zpow_zero, mul_one]
  rw [hsplit, abs_mul, abs_of_pos (a := (2:ℚ) ^ (Int.log 2 q - 52)) (by positivity)]
  have herr := roundTiesEven_err (q * 2 ^ (52 - Int.log 2 q))
  have hpow : (0:ℚ) < 2 ^ (Int.log 2 q - 52) := by positivity
  calc |(roundTiesEven (q * 2 ^ (52 - Int.log 2 q)) : ℚ) - q * 2 ^ (52 - Int.log 2 q)|
        * 2 ^ (Int.log 2 q - 52)
      ≤ (1/2) * 2 ^ (Int.log 2 q - 52) :=
        mul_le_mul_of_nonneg_right herr hpow.le
    _ = 2 ^ (Int.log 2 q - 53) := by
        rw [show (1/2 : ℚ) = (2:ℚ)^(-1 : ℤ) by norm_num,
          ← zpow_add₀ (by norm_num : (2:ℚ) ≠ 0)]
        congr 1
        ring
    _ = 2 ^ (Int.log 2 q) / 2^53 := by
        rw [zpow_sub₀ (by norm_num : (2:ℚ) ≠ 0)]
        norm_num
    _ ≤ q / 2^53 := by gcongr

/-- If `exact` is a multiple of `1 / (2s)` with `s ≤ 220` and `raw` is
within `1/1000` of it, then `Math.round` of `raw` equals `Math.round` of
`exact` or falls one below it (the latter only when `exact` sits exactly
on a half-integer). -/
theorem jsRound_near (exact raw : ℚ) (s : ℤ) (hs : 0 < s) (hs2 : s ≤ 220)
    (m : ℤ) (hm : (m : ℚ) = exact * (2 * s))
    (herr : |raw - exact| ≤ 1/1000) :
    jsRound exact - 1 ≤ jsRound raw ∧ jsRound raw ≤ jsRound exact := by
  simp only [jsRound]
  obtain ⟨herr1, herr2⟩ := abs_le.mp herr
  have hkle : ((⌊exact + 1/2⌋ : ℤ) : ℚ) ≤ exact + 1/2 := Int.floor_le _
  have hklt : exact + 1/2 < (⌊exact + 1/2⌋ : ℚ) + 1 := Int.lt_floor_add_one _
  have hS : (0:ℚ) < (s : ℚ) := by exact_mod_cast hs
  have hS2 : ((s:ℚ)) ≤ 220 := by exact_mod_cast hs2
  constructor
  · apply Int.le_floor.mpr
    push_cast
    linarith
  · have hstrict : exact < (⌊exact + 1/2⌋ : ℚ) + 1/2 := by linarith
    have hmul : (m : ℚ) < ((⌊exact + 1/2⌋ : ℚ) + 1/2) * (2 * s) := by
      rw [hm]
      exact mul_lt_mul_of_pos_right hstrict (by positivity)
    have hmul2 : (m : ℚ) < ((2 * s * ⌊exact + 1/2⌋ + s : ℤ) : ℚ) := by
      push_cast
      linarith [hmul]
    have hmulZ : m < 2 * s * ⌊exact + 1/2⌋ + s := by exact_mod_cast hmul2
    have hm1Z : m ≤ 2 * s * ⌊exact + 1/2⌋ + s - 1 := by omega
    have hm1 : (m : ℚ) ≤ 2 * (s:ℚ) * (⌊exact + 1/2⌋ : ℚ) + (s:ℚ) - 1 := by
      exact_mod_cast hm1Z
    have hrawlt : raw < (⌊exact + 1/2⌋ : ℚ) + 1/2 := by
      have hmulraw : raw * (2 * (s:ℚ)) ≤ (exact + 1/1000) * (2 * (s:ℚ)) :=
        mul_le_mul_of_nonneg_right (by linarith) (by positivity)
      have hfinal : raw * (2 * (s:ℚ)) < ((⌊exact + 1/2⌋ : ℚ) + 1/2) * (2 * (s:ℚ)) := by
        have hexact2s : exact * (2 * (s:ℚ)) = (m:ℚ) := hm.symm
        nlinarith [hmulraw, hm1, hS, hS2]
      exact lt_of_mul_lt_mul_right (by linarith [hfinal]) (by positivity : (0:ℚ) ≤ 2 * (s:ℚ))
    have hfl : ⌊raw + 1/2⌋ < ⌊exact + 1/2⌋ + 1 := by
      apply Int.floor_lt.mpr
      push_cast
      linarith
    omega

theorem min_100_wrap {a b : ℤ} (hl : b - 1 ≤ a) (hu : a ≤ b) :
    min 100 b - 1 ≤ min 100 a ∧ min 100 a ≤ min 100 b := by
  constructor <;> (rw [min_def, min_def]; split_ifs <;> omega)

/-- The progress percentage the code computes in binary64 is the exact
rational one or one below it: the accumulated double rounding error is
below `1/1000`, and the exact value is a multiple of `1/(2·span)`, so
`Math.round` can only be dragged below the exact rounding when the exact
value sits on a half-integer. -/
theorem fp_pct_bounds (into s : ℤ) (h0 : 0 ≤ into) (h1 : into ≤ s) (h2 : 0 < s)
    (h3 : s ≤ 220) :
    min 100 (jsRound (((into:ℚ) * 100) / (s:ℚ))) - 1
      ≤ min 100 (jsRound (fpMul (fpDiv (into:ℚ) (s:ℚ)) 100))
    ∧ min 100 (jsRound (fpMul (fpDiv (into:ℚ) (s:ℚ)) 100))
      ≤ min 100 (jsRound (((into:ℚ) * 100) / (s:ℚ))) := by
  have hS : (0:ℚ) < (s:ℚ) := by exact_mod_cast h2
  rcases eq_or_lt_of_le h0 with h00 | hpos
  · have hz : (into:ℚ) = 0 := by exact_mod_cast h00.symm
    rw [hz, fpDiv, zero_div, fpRound53, if_pos rfl, fpMul, zero_mul, fpRound53, if_pos rfl]
    norm_num [jsRound]
  · have hipos : (0:ℚ) < (into:ℚ) := by exact_mod_cast hpos
    have hq : (0:ℚ) < (into:ℚ)/(s:ℚ) := by positivity
    have hq1 : (into:ℚ)/(s:ℚ) ≤ 1 := by
      rw [div_le_one hS]
      exact_mod_cast h1
    have herr1 := fpRound53_err ((into:ℚ)/(s:ℚ)) hq
    obtain ⟨t11, t12⟩ := abs_le.mp herr1
    have h253 : (into:ℚ)/(s:ℚ) / 2^53 < (into:ℚ)/(s:ℚ) := div_lt_self hq (by norm_num)
    have hd1pos : 0 < fpRound53 ((into:ℚ)/(s:ℚ)) := by linarith
    have hq53 : (into:ℚ)/(s:ℚ) / 2^53 ≤ 1 / 2^53 := by gcongr
    have hd1le : fpRound53 ((into:ℚ)/(s:ℚ)) ≤ 2 := by
      have hsmall : (1:ℚ)/2^53 ≤ 1 := by norm_num
      linarith
    have hm100 : (0:ℚ) < fpRound53 ((into:ℚ)/(s:ℚ)) * 100 := by positivity
    have herr2 := fpRound53_err (fpRound53 ((into:ℚ)/(s:ℚ)) * 100) hm100
    obtain ⟨t21, t22⟩ := abs_le.mp herr2
    have hb1 : fpRound53 ((into:ℚ)/(s:ℚ)) * 100 / 2^53 ≤ 200 / 2^53 := by
      gcongr
      linarith
    have htot : |fpMul (fpRound53 ((into:ℚ)/(s:ℚ))) 100 - ((into:ℚ)/(s:ℚ)) * 100|
        ≤ 1/1000 := by
      rw [abs_le]
      rw [fpMul] at *
      constructor <;> linarith
    have hexact : (into:ℚ) * 100 / (s:ℚ) = ((into:ℚ)/(s:ℚ)) * 100 := by ring
    rw [hexact]
    have hmint : ((200 * into : ℤ) : ℚ) = ((into:ℚ)/(s:ℚ)) * 100 * (2 * s) := by
      push_cast
      field_simp
      ring
    have hnear := jsRound_near (((into:ℚ)/(s:ℚ)) * 100)
      (fpMul (fpRound53 ((into:ℚ)/(s:ℚ))) 100) s h2 h3 (200 * into) hmint htot
    rw [fpDiv]
    exact min_100_wrap hnear.1 hnear.2

theorem getLevelInfo_scan_some (p : Int) (cur next : Level)
    (hscan : scanLevels p LEVELS (LEVELS.headD ⟨"Seedling", 0⟩, none) = (cur, some next)) :
    getLevelInfo p = ⟨cur.label,
      min 100 (jsRound (fpMul (fpDiv ((p - cur.threshold : Int) : ℚ)
        ((next.threshold - cur.threshold : Int) : ℚ)) 100)),
      toString (next.threshold - p) ++ " points until " ++ next.label ++ "."⟩ := by
  unfold getLevelInfo
  rw [hscan]

theorem getLevelInfo_scan_none (p : Int) (cur : Level)
    (hscan : scanLevels p LEVELS (LEVELS.headD ⟨"Seedling", 0⟩, none) = (cur, none)) :
    getLevelInfo p = ⟨cur.label, 100,
      "You reached the top tier – keep the grove thriving!"⟩ := by
  unfold getLevelInfo
  rw [hscan]

/-- Counterexample to C6 as stated: at `points = 23` (Seedling tier,
`into = 23`, `span = 40`) the code evaluates `(23 / 40) * 100` in
binary64 to `8092405580431359 / 2 ^ 47 = 57.49999999999999289…` — the
two roundings land just below the exact `57.5` — so `Math.round` gives
`57`, while the exact formula of the claim,
`min(100, round(100·(points − cur) / (next − cur)))`, gives `58`. -/
theorem levelInfo_round_divergence :
    (getLevelInfo 23).progressPercent = 57
    ∧ currentTierSpec 23 = ⟨"Seedling", 0⟩
    ∧ nextTierSpec 23 = some ⟨"Sprout", 40⟩
    ∧ min 100 (jsRound ((((23:Int) - (0:Int) : Int) : ℚ) * 100
        / (((40:Int) - (0:Int) : Int) : ℚ))) = 58 := by
  refine ⟨?_, by decide, by decide, ?_⟩
  · have hinfo := getLevelInfo_scan_some 23 ⟨"Seedling", 0⟩ ⟨"Sprout", 40⟩
      (by norm_num [scanLevels, LEVELS])
    rw [hinfo]
    show min 100 (jsRound (fpMul (fpDiv (((23 - 0 : Int)):ℚ) (((40 - 0 : Int)):ℚ)) 100)) = 57
    have hlog1 : Int.log 2 ((23:ℚ)/40) = -1 :=
      int_log_eq (by norm_num) (by norm_num) (by norm_num)
    have hval : fpMul (fpDiv (((23 - 0 : Int)):ℚ) (((40 - 0 : Int)):ℚ)) 100
        = 8092405580431359 / 140737488355328 := by
      have harg : (((23 - 0 : Int)):ℚ) / (((40 - 0 : Int)):ℚ) = 23/40 := by norm_num
      rw [fpDiv, harg]
      have hd1 : fpRound53 ((23:ℚ)/40) = 5179139571476070 / 9007199254740992 := by
        rw [fpRound53, if_neg (by norm_num), hlog1,
          show (52 - (-1:ℤ)) = 53 by norm_num, show ((-1:ℤ) - 52) = -53 by norm_num,
          show (2:ℚ)^(53:ℤ) = 9007199254740992 by norm_num,
          show (2:ℚ)^(-53:ℤ) = 1/9007199254740992 by norm_num,
          roundTiesEven, if_pos (by norm_num)]
        norm_num
      rw [hd1]
      have hlog2 : Int.log 2 ((5179139571476070 / 9007199254740992 : ℚ) * 100) = 5 :=
        int_log_eq (by norm_num) (by norm_num) (by norm_num)
      rw [fpMul, fpRound53, if_neg (by norm_num), hlog2,
        show (52 - (5:ℤ)) = 47 by norm_num, show ((5:ℤ) - 52) = -47 by norm_num,
        show (2:ℚ)^(47:ℤ) = 140737488355328 by norm_num,
        show (2:ℚ)^(-47:ℤ) = 1/140737488355328 by norm_num,
        roundTiesEven, if_pos (by norm_num)]
      norm_num
    rw [hval, jsRound]
    norm_num
  · rw [jsRound]
    norm_num

/-- Claim C6 (amended): for every `points ≥ 0`, `getLevelInfo` reports the
label of the tier with the greatest threshold ≤ points (membership, the
threshold bound, and maximality over `LEVELS`); when a next tier exists the
progress is `min(100, Math.round of the binary64 evaluation of
(points − cur)/(next − cur)·100)`, which equals the exact-rational
`min(100, round(100·(points − cur)/(next − cur)))` of the original claim
or falls exactly one below it (the counterexample `points = 23` attains
the gap), and the caption reports `next.threshold − points` points
remaining to the next label; when the current tier is the last, progress
is 100 with the top-tier caption.  At the endpoints: `getLevelInfo 0` is
the first label with progress 0, and any `points ≥ 480` yields the last
label with progress 100. -/
theorem levelInfo_correct (p : Int) (hp : 0 ≤ p) :
    (getLevelInfo p).label = (currentTierSpec p).label
    ∧ currentTierSpec p ∈ LEVELS
    ∧ (currentTierSpec p).threshold ≤ p
    ∧ (∀ l ∈ LEVELS, l.threshold ≤ p → l.threshold ≤ (currentTierSpec p).threshold)
    ∧ (∀ n, nextTierSpec p = some n →
        (getLevelInfo p).progressPercent
          = min 100 (jsRound (fpMul (fpDiv ((p - (currentTierSpec p).threshold : Int) : ℚ)
              ((n.threshold - (currentTierSpec p).threshold : Int) : ℚ)) 100))
        ∧ min 100 (jsRound (((p - (currentTierSpec p).threshold : Int) : ℚ) * 100
            / ((n.threshold - (currentTierSpec p).threshold : Int) : ℚ))) - 1
          ≤ (getLevelInfo p).progressPercent
        ∧ (getLevelInfo p).progressPercent
          ≤ min 100 (jsRound (((p - (currentTierSpec p).threshold : Int) : ℚ) * 100
              / ((n.threshold - (currentTierSpec p).threshold : Int) : ℚ)))
        ∧ (getLevelInfo p).caption
          = toString (n.threshold - p) ++ " points until " ++ n.label ++ ".")
    ∧ (nextTierSpec p = none →
        (getLevelInfo p).progressPercent = 100
        ∧ (getLevelInfo p).caption = "You reached the top tier – keep the grove thriving!")
    ∧ (getLevelInfo 0).label = "Seedling"
    ∧ (getLevelInfo 0).progressPercent = 0
    ∧ (480 ≤ p →
        (getLevelInfo p).label = "Grove guardian"
        ∧ (getLevelInfo p).progressPercent = 100) := by
  have hinfo0 := getLevelInfo_scan_some 0 ⟨"Seedling", 0⟩ ⟨"Sprout", 40⟩
    (by norm_num [scanLevels, LEVELS])
  have hz1 : (getLevelInfo 0).label = "Seedling" := by
    rw [hinfo0]
  have hz2 : (getLevelInfo 0).progressPercent = 0 := by
    rw [hinfo0]
    show min 100 (jsRound (fpMul (fpDiv (((0 - 0 : Int)):ℚ) (((40 - 0 : Int)):ℚ)) 100)) = 0
    rw [fpDiv, show (((0 - 0 : Int)):ℚ) / (((40 - 0 : Int)):ℚ) = (0:ℚ) by norm_num,
      fpRound53, if_pos rfl, fpMul, zero_mul, fpRound53, if_pos rfl, jsRound]
    norm_num
  rcases lt_or_le p 40 with h40 | h40
  · -- Seedling tier
    have c40 : ¬ (40:Int) ≤ p := by omega
    have c120 : ¬ (120:Int) ≤ p := by omega
    have c260 : ¬ (260:Int) ≤ p := by omega
    have c480 : ¬ (480:Int) ≤ p := by omega
    have hscan : scanLevels p LEVELS (LEVELS.headD ⟨"Seedling", 0⟩, none)
        = (⟨"Seedling", 0⟩, some ⟨"Sprout", 40⟩) := by
      simp [scanLevels, LEVELS, hp, c40, c120, c260, c480]
    have hinfo := getLevelInfo_scan_some p ⟨"Seedling", 0⟩ ⟨"Sprout", 40⟩ hscan
    have hfilt : tiersAtOrBelow p = [⟨"Seedling", 0⟩] := by
      simp [tiersAtOrBelow, LEVELS, hp, c40, c120, c260, c480]
    have hcur : currentTierSpec p = ⟨"Seedling", 0⟩ := by
      rw [currentTierSpec, hfilt]
      rfl
    have hnext : nextTierSpec p = some ⟨"Sprout", 40⟩ := by
      rw [nextTierSpec, hfilt]
      rfl
    refine ⟨by rw [hinfo, hcur], by rw [hcur]; simp [LEVELS],
      by rw [hcur]; exact hp, ?_, ?_, ?_, hz1, hz2, fun h => absurd h c480⟩
    · intro l hl hlp
      rw [hcur]
      simp only [LEVELS, List.mem_cons, List.not_mem_nil, or_false] at hl
      rcases hl with rfl | rfl | rfl | rfl | rfl <;> simp_all <;> omega
    · intro n hn
      rw [hnext, Option.some_inj] at hn
      subst hn
      have hbounds := fp_pct_bounds (p - 0) (40 - 0) (by omega) (by omega)
        (by omega) (by omega)
      refine ⟨by rw [hinfo, hcur], ?_, ?_, by rw [hinfo]⟩
      · rw [hcur]
        simp only [hinfo]
        exact hbounds.1
      · rw [hcur]
        simp only [hinfo]
        exact hbounds.2
    · intro hn
      rw [hnext] at hn
      exact Option.noConfusion hn
  · rcases lt_or_le p 120 with h120 | h120
    · -- Sprout tier
      have c120 : ¬ (120:Int) ≤ p := by omega
      have c260 : ¬ (260:Int) ≤ p := by omega
      have c480 : ¬ (480:Int) ≤ p := by omega
      have hscan : scanLevels p LEVELS (LEVELS.headD ⟨"Seedling", 0⟩, none)
          = (⟨"Sprout", 40⟩, some ⟨"Sapling", 120⟩) := by
        simp [scanLevels, LEVELS, hp, h40, c120, c260, c480]
      have hinfo := getLevelInfo_scan_some p ⟨"Sprout", 40⟩ ⟨"Sapling", 120⟩ hscan
      have hfilt : tiersAtOrBelow p = [⟨"Seedling", 0⟩, ⟨"Sprout", 40⟩] := by
        simp [tiersAtOrBelow, LEVELS, hp, h40, c120, c260, c480]
      have hcur : currentTierSpec p = ⟨"Sprout", 40⟩ := by
        rw [currentTierSpec, hfilt]
        rfl
      have hnext : nextTierSpec p = some ⟨"Sapling", 120⟩ := by
        rw [nextTierSpec, hfilt]
        rfl
      refine ⟨by rw [hinfo, hcur], by rw [hcur]; simp [LEVELS],
        by rw [hcur]; exact h40, ?_, ?_, ?_, hz1, hz2, fun h => absurd h c480⟩
      · intro l hl hlp
        rw [hcur]
        simp only [LEVELS, List.mem_cons, List.not_mem_nil, or_false] at hl
        rcases hl with rfl | rfl | rfl | rfl | rfl <;> simp_all <;> omega
      · intro n hn
        rw [hnext, Option.some_inj] at hn
        subst hn
        have hbounds := fp_pct_bounds (p - 40) (120 - 40) (by omega) (by omega)
          (by omega) (by omega)
        refine ⟨by rw [hinfo, hcur], ?_, ?_, by rw [hinfo]⟩
        · rw [hcur]
          simp only [hinfo]
          exact hbounds.1
        · rw [hcur]
          simp only [hinfo]
          exact hbounds.2
      · intro hn
        rw [hnext] at hn
        exact Option.noConfusion hn
    · rcases lt_or_le p 260 with h260 | h260
      · -- Sapling tier
        have c260 : ¬ (260:Int) ≤ p := by omega
        have c480 : ¬ (480:Int) ≤ p := by omega
        have hscan : scanLevels p LEVELS (LEVELS.headD ⟨"Seedling", 0⟩, none)
            = (⟨"Sapling", 120⟩, some ⟨"Young tree", 260⟩) := by
          simp [scanLevels, LEVELS, hp, h40, h120, c260, c480]
        have hinfo := getLevelInfo_scan_some p ⟨"Sapling", 120⟩ ⟨"Young tree", 260⟩ hscan
        have hfilt : tiersAtOrBelow p
            = [⟨"Seedling", 0⟩, ⟨"Sprout", 40⟩, ⟨"Sapling", 120⟩] := by
          simp [tiersAtOrBelow, LEVELS, hp, h40, h120, c260, c480]
        have hcur : currentTierSpec p = ⟨"Sapling", 120⟩ := by
          rw [currentTierSpec, hfilt]
          rfl
        have hnext : nextTierSpec p = some ⟨"Young tree", 260⟩ := by
          rw [nextTierSpec, hfilt]
          rfl
        refine ⟨by rw [hinfo, hcur], by rw [hcur]; simp [LEVELS],
          by rw [hcur]; exact h120, ?_, ?_, ?_, hz1, hz2, fun h => absurd h c480⟩
        · intro l hl hlp
          rw [hcur]
          simp only [LEVELS, List.mem_cons, List.not_mem_nil, or_false] at hl
          rcases hl with rfl | rfl | rfl | rfl | rfl <;> simp_all <;> omega
        · intro n hn
          rw [hnext, Option.some_inj] at hn
          subst hn
          have hbounds := fp_pct_bounds (p - 120) (260 - 120) (by omega) (by omega)
            (by omega) (by omega)
          refine ⟨by rw [hinfo, hcur], ?_, ?_, by rw [hinfo]⟩
          · rw [hcur]
            simp only [hinfo]
            exact hbounds.1
          · rw [hcur]
            simp only [hinfo]
            exact hbounds.2
        · intro hn
          rw [hnext] at hn
          exact Option.noConfusion hn
      · rcases lt_or_le p 480 with h480 | h480
        · -- Young tree tier
          have c480 : ¬ (480:Int) ≤ p := by omega
          have hscan : scanLevels p LEVELS (LEVELS.headD ⟨"Seedling", 0⟩, none)
              = (⟨"Young tree", 260⟩, some ⟨"Grove guardian", 480⟩) := by
            simp [scanLevels, LEVELS, hp, h40, h120, h260, c480]
          have hinfo := getLevelInfo_scan_some p ⟨"Young tree", 260⟩
            ⟨"Grove guardian", 480⟩ hscan
          have hfilt : tiersAtOrBelow p
              = [⟨"Seedling", 0⟩, ⟨"Sprout", 40⟩, ⟨"Sapling", 120⟩,
                 ⟨"Young tree", 260⟩] := by
            simp [tiersAtOrBelow, LEVELS, hp, h40, h120, h260, c480]
          have hcur : currentTierSpec p = ⟨"Young tree", 260⟩ := by
            rw [currentTierSpec, hfilt]
            rfl
          have hnext : nextTierSpec p = some ⟨"Grove guardian", 480⟩ := by
            rw [nextTierSpec, hfilt]
            rfl
          refine ⟨by rw [hinfo, hcur], by rw [hcur]; simp [LEVELS],
            by rw [hcur]; exact h260, ?_, ?_, ?_, hz1, hz2, fun h => absurd h c480⟩
          · intro l hl hlp
            rw [hcur]
            simp only [LEVELS, List.mem_cons, List.not_mem_nil, or_false] at hl
            rcases hl with rfl | rfl | rfl | rfl | rfl <;> simp_all <;> omega
          · intro n hn
            rw [hnext, Option.some_inj] at hn
            subst hn
            have hbounds := fp_pct_bounds (p - 260) (480 - 260) (by omega) (by omega)
              (by omega) (by omega)
            refine ⟨by rw [hinfo, hcur], ?_, ?_, by rw [hinfo]⟩
            · rw [hcur]
              simp only [hinfo]
              exact hbounds.1
            · rw [hcur]
              simp only [hinfo]
              exact hbounds.2
          · intro hn
            rw [hnext] at hn
            exact Option.noConfusion hn
        · -- Grove guardian tier
          have c40 : (40:Int) ≤ p := by omega
          have c120 : (120:Int) ≤ p := by omega
          have c260 : (260:Int) ≤ p := by omega
          have hscan : scanLevels p LEVELS (LEVELS.headD ⟨"Seedling", 0⟩, none)
              = (⟨"Grove guardian", 480⟩, none) := by
            simp [scanLevels, LEVELS, hp, c40, c120, c260, h480]
          have hinfo := getLevelInfo_scan_none p ⟨"Grove guardian", 480⟩ hscan
          have hfilt : tiersAtOrBelow p = LEVELS := by
            simp [tiersAtOrBelow, LEVELS, hp, c40, c120, c260, h480]
          have hcur : currentTierSpec p = ⟨"Grove guardian", 480⟩ := by
            rw [currentTierSpec, hfilt]
            rfl
          have hnext : nextTierSpec p = none := by
            rw [nextTierSpec, hfilt]
            rfl
          refine ⟨by rw [hinfo, hcur], by rw [hcur]; simp [LEVELS],
            by rw [hcur]; exact h480, ?_, ?_, ?_, hz1, hz2,
            fun _ => ⟨by rw [hinfo], by rw [hinfo]⟩⟩
          · intro l hl hlp
            rw [hcur]
            simp only [LEVELS, List.mem_cons, List.not_mem_nil, or_false] at hl
            rcases hl with rfl | rfl | rfl | rfl | rfl <;> simp_all <;> omega
          · intro n hn
            rw [hnext] at hn
            exact Option.noConfusion hn
          · intro _
            exact ⟨by rw [hinfo], by rw [hinfo]⟩

/-- Witness for C6 (amended) at `points = 41` (Sprout tier, next Sapling):
the label is the greatest tier at or below 41, the binary64 progress is
bounded by the exact-formula value, and the caption follows the claimed
shape. -/
theorem levelInfo_correct_witness :
    (getLevelInfo 41).label = (currentTierSpec 41).label
    ∧ (getLevelInfo 41).progressPercent
        ≤ min 100 (jsRound ((((41:Int) - (currentTierSpec 41).threshold : Int) : ℚ) * 100
            / (((Level.mk "Sapling" 120).threshold - (currentTierSpec 41).threshold : Int) : ℚ)))
    ∧ (getLevelInfo 41).caption
        = toString ((120:Int) - 41) ++ " points until " ++ "Sapling" ++ "." := by
  have hc := levelInfo_correct 41 (by decide)
  have hn := hc.2.2.2.2.1 ⟨"Sapling", 120⟩ (by decide)
  exact ⟨hc.1, hn.2.2.1, hn.2.2.2⟩

/-! ## Claim C9 -/

/-- A state holding a habit whose id is `habit_5` — e.g. one added when
`Date.now()` returned 5. -/
def exDupId : AppState :=
  { habits := [⟨"habit_5", "x", 0, 0⟩], completions := [], points := 0 }

/-- Counterexample to C9 as stated: the submit handler derives the new id
from the clock (`habit_` ++ `Date.now()`), so adding a habit when an
existing habit already carries the id for that timestamp (two adds in the
same millisecond) appends a habit whose id is NOT distinct from every
existing id. -/
theorem addHabit_id_collision :
    jsTrim "y" ≠ ""
    ∧ (addHabit exDupId 0 5 "y").habits.map (fun h => h.id)
        = ["habit_5", "habit_5"] := by
  constructor
  · decide
  · decide

/-- Claim C9 (amended): if the name trims to empty the submit handler is a
no-op on the state; otherwise it appends exactly one habit with id
`habit_<Date.now()>` and `order = 1 + max(existing orders, default -1 when
the registry is empty)`, leaving the existing habits, the completion
ledger and the points unchanged.  The new id is distinct from every
existing id provided no existing habit already carries the id derived from
this call's timestamp (which holds whenever all adds see distinct
`Date.now()` values); `addHabit_id_collision` shows the proviso is
necessary. -/
theorem addHabit_contract (s : AppState) (today : DayKey) (now : Int) (name : String) :
    (jsTrim name = "" → addHabit s today now name = s)
    ∧ (jsTrim name ≠ "" →
        (addHabit s today now name).habits
          = s.habits ++ [⟨"habit_" ++ toString now, name, today,
              (if s.habits.isEmpty then -1
               else jsMathMax (s.habits.map (fun h => h.order))) + 1⟩]
        ∧ (addHabit s today now name).completions = s.completions
        ∧ (addHabit s today now name).points = s.points
        ∧ (("habit_" ++ toString now) ∉ s.habits.map (fun h => h.id) →
            ∀ h0 ∈ s.habits, h0.id ≠ "habit_" ++ toString now)) := by
  constructor
  · intro ht
    simp [addHabit, ht]
  · intro ht
    refine ⟨?_, by simp [addHabit, ht], by simp [addHabit, ht],
      fun hni h0 hmem heq => hni (heq ▸ List.mem_map_of_mem (fun h => h.id) hmem)⟩
    cases hhab : s.habits with
    | nil => simp [addHabit, ht, hhab]
    | cons a rest => simp [addHabit, ht, hhab]

/-- Witness for C9 (amended) at a concrete input: adding "walk" at
timestamp 5 to the initial state appends exactly the habit
`habit_5` with order `max(0,1,2) + 1 = 3`. -/
theorem addHabit_contract_witness :
    jsTrim "walk" ≠ ""
    ∧ (addHabit exState0 0 5 "walk").habits
        = exState0.habits ++ [⟨"habit_" ++ toString (5:Int), "walk", 0,
            (if exState0.habits.isEmpty then -1
             else jsMathMax (exState0.habits.map (fun h => h.order))) + 1⟩] :=
  ⟨by decide, ((addHabit_contract exState0 0 5 "walk").2 (by decide)).1⟩

end HabitGrove
